import Mathlib

/-!
# Verification of the disk-cloning engine (`src/disk_backup/main.rs`)

Shallow embedding of the disk cloner: the three copy strategies
(`clone_sector_by_sector`, `smart_clone`, `auto_fit_clone`), the MBR
partition-table rescaler (`adjust_partition_table`), the orchestrator
(`clone_disk`) and the progress counter (`update_progress`).

Files are modelled as byte lists (`List Nat`, each entry a byte value);
the source stream additionally carries an optional injected read failure so
that the error paths of the copy loops can be exercised.  Machine integers
are modelled as `Nat`; the 32-bit length field of a partition entry is
reduced `% 2 ^ 32` exactly where the Rust code manipulates a `u32`.
-/

namespace DiskBackup

set_option maxRecDepth 10000

/-- The `std::io::ErrorKind` values the program distinguishes:
`InvalidData` is the designated bad-sector signal in
`clone_sector_by_sector`; `NotFound` is what `File::open` returns for an
absent path; `UnexpectedEof` is what `read_exact` returns on a short file;
`Other` stands for every remaining kind. -/
inductive IoKind where
  | InvalidData
  | NotFound
  | UnexpectedEof
  | Other
deriving DecidableEq, Repr

/-- The `CloneError` enum of the source (`Io` wraps an `io::Error`, of which
only the kind is relevant to the program's control flow). -/
inductive CloneError where
  | Io (kind : IoKind)
  | DiskSizeMismatch
  | InvalidLayout
  | BadSector (offset : Nat)
deriving DecidableEq, Repr

/-- `DiskInfo { total_size, used_space, sector_size }` from the source. -/
structure DiskInfo where
  total_size : Nat
  used_space : Nat
  sector_size : Nat
deriving DecidableEq, Repr

/-- The `CloneMode` enum: `SectorBySector` (FullCopy), `SmartClone`
(UsedOnly), `AutoFit` (UsedOnly + rescale). -/
inductive CloneMode where
  | SectorBySector
  | SmartClone
  | AutoFit
deriving DecidableEq, Repr

/-- Model of the source file handle: its byte contents plus an optional
injected read failure `some (p, kind)`, meaning every read starting at or
beyond position `p` fails with `kind`, and reads before `p` are truncated
at the failing region (as a block device truncates a read at a bad
sector).  `none` models an ordinary error-free file. -/
structure SrcFile where
  data : List Nat
  bad : Option (Nat × IoKind)
deriving DecidableEq, Repr

/-- `File::read` into a buffer of size `k` at position `pos`: returns up to
`k` bytes, fewer near end-of-file, the empty list at end-of-file, and the
injected error when the read starts in the failing region. -/
def SrcFile.readAt (f : SrcFile) (pos k : Nat) : Except IoKind (List Nat) :=
  match f.bad with
  | none => .ok ((f.data.drop pos).take k)
  | some (p, kind) =>
      if p ≤ pos then .error kind
      else .ok ((f.data.drop pos).take (min k (p - pos)))

/-- `write_all` at position `pos` into a file with contents `dst`:
overwrites bytes `pos..pos+bs.length`, zero-fills any gap past the old
end-of-file, keeps every byte after the written range and never
truncates (the destination is opened without `truncate`). -/
def writeAt (dst : List Nat) (pos : Nat) (bs : List Nat) : List Nat :=
  dst.take pos ++ List.replicate (pos - dst.length) 0 ++ bs ++ dst.drop (pos + bs.length)

/-- `update_progress`: the source computes
`(current as f64 / total as f64 * 100.0) as u64` and stores it.  Modelled
as the exact value `current * 100 / total` (floor); this agrees with the
f64 computation whenever that computation is exact, in particular at
`current = total > 0` where IEEE division of equal finite values yields
exactly `1.0` and the stored value is exactly `100`.  The theorems below
only rely on it at such exact points. -/
def update_progress (current total : Nat) : Nat :=
  current * 100 / total

/-- Decidable equality for `Except`, so results of the copy functions can
be compared by `decide`. -/
instance instDecEqExcept {ε α : Type} [DecidableEq ε] [DecidableEq α] :
    DecidableEq (Except ε α) := fun x y =>
  match x, y with
  | .ok a, .ok b =>
      if h : a = b then .isTrue (congrArg Except.ok h)
      else .isFalse (fun hc => h (Except.ok.inj hc))
  | .error a, .error b =>
      if h : a = b then .isTrue (congrArg Except.error h)
      else .isFalse (fun hc => h (Except.error.inj hc))
  | .ok _, .error _ => .isFalse (fun hc => Except.noConfusion hc)
  | .error _, .ok _ => .isFalse (fun hc => Except.noConfusion hc)

/-- Outcome of one copy strategy: the `Result`, the destination file's
contents afterwards, and the progress counter afterwards. -/
structure CopyResult where
  res : Except CloneError Unit
  dst : List Nat
  progress : Nat
deriving DecidableEq, Repr

/-- The loop of `clone_sector_by_sector`: while `copied < total`, read up
to `min buffer_size (total - copied)` bytes; `Ok(0)` breaks (EOF), `Ok(n)`
writes the `n` bytes, advances the counter and updates progress, and a
read error is returned — translated to `BadSector(bytes_copied)` when its
kind is `InvalidData`, propagated as an I/O error otherwise. -/
def cloneSectorLoop (bufSize : Nat) (src : SrcFile) (total : Nat)
    (srcPos : Nat) (dst : List Nat) (dstPos : Nat)
    (copied : Nat) (progress : Nat) : CopyResult :=
  if _hlt : copied < total then
    let toRead := min bufSize (total - copied)
    match src.readAt srcPos toRead with
    | .error k =>
        if k = IoKind.InvalidData then
          ⟨.error (CloneError.BadSector copied), dst, progress⟩
        else
          ⟨.error (CloneError.Io k), dst, progress⟩
    | .ok bs =>
        if _hz : bs.length = 0 then
          ⟨.ok (), dst, progress⟩
        else
          cloneSectorLoop bufSize src total (srcPos + bs.length)
            (writeAt dst dstPos bs) (dstPos + bs.length)
            (copied + bs.length) (update_progress (copied + bs.length) total)
  else
    ⟨.ok (), dst, progress⟩
termination_by total - copied
decreasing_by omega

/-- `clone_sector_by_sector`: runs the loop on freshly opened files (both
positions 0), `bytes_copied = 0`, progress counter starting at 0. -/
def clone_sector_by_sector (bufSize : Nat) (src : SrcFile) (dst : List Nat)
    (total : Nat) : CopyResult :=
  cloneSectorLoop bufSize src total 0 dst 0 0 0

/-- The loop of `smart_clone`: identical streaming loop bounded by
`used_space` instead of `total_size`; every read error — including
`InvalidData` — is propagated as an I/O error (`Err(e.into())`), with no
bad-sector translation. -/
def smartCloneLoop (bufSize : Nat) (src : SrcFile) (used : Nat)
    (srcPos : Nat) (dst : List Nat) (dstPos : Nat)
    (copied : Nat) (progress : Nat) : CopyResult :=
  if _hlt : copied < used then
    let toRead := min bufSize (used - copied)
    match src.readAt srcPos toRead with
    | .error k => ⟨.error (CloneError.Io k), dst, progress⟩
    | .ok bs =>
        if _hz : bs.length = 0 then
          ⟨.ok (), dst, progress⟩
        else
          smartCloneLoop bufSize src used (srcPos + bs.length)
            (writeAt dst dstPos bs) (dstPos + bs.length)
            (copied + bs.length) (update_progress (copied + bs.length) used)
  else
    ⟨.ok (), dst, progress⟩
termination_by used - copied
decreasing_by omega

/-- `smart_clone`: runs the used-space-bounded loop on freshly opened
files. -/
def smart_clone (bufSize : Nat) (src : SrcFile) (dst : List Nat)
    (source_info : DiskInfo) : CopyResult :=
  smartCloneLoop bufSize src source_info.used_space 0 dst 0 0 0

/-- Rust's `as u32` cast applied to the nonnegative f64 product
`length_sectors as f64 * scale_factor`: truncation toward zero, saturating
at `0` below and at `u32::MAX = 2 ^ 32 - 1` above (Rust float-to-int casts
saturate; they never wrap).  The f64 value is modelled by the exact
rational; the two agree whenever the f64 computation is exact, which holds
at every concrete instance used in the theorems below (factors `1/2`, `1`,
`2` on lengths below `2 ^ 32`, all products below `2 ^ 53`). -/
def f64AsU32 (x : ℚ) : Nat :=
  min (Int.toNat ⌊x⌋) (2 ^ 32 - 1)

/-- `u32::to_le_bytes`: the four little-endian base-256 digits. -/
def leBytes32 (n : Nat) : List Nat :=
  [n % 256, n / 256 % 256, n / 256 ^ 2 % 256, n / 256 ^ 3 % 256]

/-- `u32::from_le_bytes`: recompose a `u32` from four bytes (each reduced
`% 256`; in the source the bytes are `u8`, so the reduction is vacuous
there and merely makes the model total on `Nat`). -/
def fromLe32 (b0 b1 b2 b3 : Nat) : Nat :=
  b0 % 256 + 256 * (b1 % 256) + 256 ^ 2 * (b2 % 256) + 256 ^ 3 * (b3 % 256)

/-- The body of the `for chunk in table.chunks_mut(16)` loop of
`adjust_partition_table` on one 16-byte entry: if the partition type byte
(`chunk[4]`) is nonzero, decode `length_sectors` from bytes 12..16
little-endian, scale it, and write the scaled value back into bytes 12..16
(`start_sector`, read in the source but unused, and `type_code` are left
as they are); an entry with type byte 0 is left untouched. -/
def adjustEntry (factor : ℚ) (chunk : List Nat) : List Nat :=
  if chunk.getD 4 0 ≠ 0 then
    let length_sectors := fromLe32 (chunk.getD 12 0) (chunk.getD 13 0)
      (chunk.getD 14 0) (chunk.getD 15 0)
    let new_length := f64AsU32 ((length_sectors : ℚ) * factor)
    chunk.take 12 ++ leBytes32 new_length
  else
    chunk

/-- The `chunks_mut(16)` traversal of the 64-byte table: the four 16-byte
entries, each passed through `adjustEntry`. -/
def adjustTable (factor : ℚ) (t : List Nat) : List Nat :=
  adjustEntry factor (t.take 16) ++ adjustEntry factor ((t.drop 16).take 16) ++
    adjustEntry factor ((t.drop 32).take 16) ++ adjustEntry factor (t.drop 48)

/-- `adjust_partition_table`: seek to `0x1BE`, `read_exact` 64 bytes (this
fails with an unexpected-EOF I/O error when the file is shorter than
`0x1BE + 64 = 510` bytes, in which case nothing is written), rescale each
entry, seek back to `0x1BE` and write the 64 bytes back.  On success the
new file contents are returned. -/
def adjust_partition_table (dst : List Nat) (scale_factor : ℚ) :
    Except CloneError (List Nat) :=
  if 0x1BE + 64 ≤ dst.length then
    let table := (dst.drop 0x1BE).take 64
    .ok (writeAt dst 0x1BE (adjustTable scale_factor table))
  else
    .error (CloneError.Io IoKind.UnexpectedEof)

/-- `auto_fit_clone`: compute
`scale_factor = dest.total_size as f64 / source.total_size as f64`
(modelled by the exact rational quotient; no theorem below depends on its
value), run `smart_clone`, then `adjust_partition_table` on the
destination. -/
def auto_fit_clone (bufSize : Nat) (src : SrcFile) (dst : List Nat)
    (source_info dest_info : DiskInfo) : CopyResult :=
  let scale_factor : ℚ := (dest_info.total_size : ℚ) / (source_info.total_size : ℚ)
  let r := smart_clone bufSize src dst source_info
  match r.res with
  | .error _ => r
  | .ok _ =>
      match adjust_partition_table r.dst scale_factor with
      | .error e => ⟨.error e, r.dst, r.progress⟩
      | .ok d2 => ⟨.ok (), d2, r.progress⟩

/-- `get_disk_info`: `File::open(path)` fails with `NotFound` when the
file is absent; otherwise `total_size = metadata.len()`,
`used_space = metadata.len()` (the source's explicit placeholder) and
`sector_size = 512`. -/
def get_disk_info : Option (List Nat) → Except CloneError DiskInfo
  | none => .error (CloneError.Io IoKind.NotFound)
  | some d => .ok ⟨d.length, d.length, 512⟩

/-- Outcome of `clone_disk`: the `Result`, the destination file afterwards
(`none` when it still does not exist) and the progress counter. -/
structure CloneOutcome where
  res : Except CloneError Unit
  dstFile : Option (List Nat)
  progress : Nat
deriving DecidableEq, Repr

/-- `clone_disk`: resolve both descriptors with `get_disk_info` (source
first — each is a plain `File::open` plus `metadata()`, so an absent path
fails here with `NotFound` before anything else happens), run the
pre-flight size check `source.total_size > dest.total_size && mode !=
SmartClone`, then reopen source read-only and destination write-capable
with `create(true)` (never reached for an absent destination, because
`get_disk_info(dest_path)` has already failed), and dispatch on the mode.
The progress counter starts at 0 (`AtomicU64::new(0)`). -/
def clone_disk (mode : CloneMode) (bufSize : Nat)
    (srcF : Option SrcFile) (dstF : Option (List Nat)) : CloneOutcome :=
  match srcF with
  | none => ⟨.error (CloneError.Io IoKind.NotFound), dstF, 0⟩
  | some src =>
      match dstF with
      | none => ⟨.error (CloneError.Io IoKind.NotFound), none, 0⟩
      | some dst =>
          let source_info : DiskInfo := ⟨src.data.length, src.data.length, 512⟩
          let dest_info : DiskInfo := ⟨dst.length, dst.length, 512⟩
          if source_info.total_size > dest_info.total_size ∧ mode ≠ CloneMode.SmartClone then
            ⟨.error CloneError.DiskSizeMismatch, some dst, 0⟩
          else
            match mode with
            | .SectorBySector =>
                let r := clone_sector_by_sector bufSize src dst source_info.total_size
                ⟨r.res, some r.dst, r.progress⟩
            | .SmartClone =>
                let r := smart_clone bufSize src dst source_info
                ⟨r.res, some r.dst, r.progress⟩
            | .AutoFit =>
                let r := auto_fit_clone bufSize src dst source_info dest_info
                ⟨r.res, some r.dst, r.progress⟩

/-- A concrete 510-byte disk image: zeros up to the table at `0x1BE`,
entry 0 with `type_code = 0x83`, `start_sector = 2`,
`length_sectors = 1000` (little-endian `E8 03 00 00`), entries 1–3
empty. -/
def sampleDisk : List Nat :=
  List.replicate 0x1BE 0 ++
    ([0, 0, 0, 0, 131, 0, 0, 0, 2, 0, 0, 0, 232, 3, 0, 0] ++ List.replicate 48 0)

/-- A concrete 510-byte disk image whose entry 0 has `type_code = 1` and
`length_sectors = 0xFFFFFFFF = u32::MAX` (little-endian `FF FF FF FF`). -/
def overflowDisk : List Nat :=
  List.replicate 0x1BE 0 ++
    ([0, 0, 0, 0, 1, 0, 0, 0, 0, 0, 0, 0, 255, 255, 255, 255] ++ List.replicate 48 0)

/-! ## Helper lemmas about `writeAt` -/

/-- When the write starts inside the file, no zero padding is inserted. -/
lemma writeAt_eq_of_le (d bs : List Nat) (p : Nat) (hp : p ≤ d.length) :
    writeAt d p bs = d.take p ++ bs ++ d.drop (p + bs.length) := by
  simp [writeAt, Nat.sub_eq_zero_of_le hp]

/-- Writing at position 0 replaces the first `bs.length` bytes. -/
lemma writeAt_zero (d bs : List Nat) : writeAt d 0 bs = bs ++ d.drop bs.length := by
  simp [writeAt]

/-- A write never shrinks the file: the new length is the maximum of the
old length and the end of the written range. -/
lemma writeAt_length (d bs : List Nat) (p : Nat) :
    (writeAt d p bs).length = max d.length (p + bs.length) := by
  simp [writeAt]
  omega

/-- Bytes strictly before the written range are unchanged. -/
lemma writeAt_getElem?_lt (d bs : List Nat) (p i : Nat) (hp : p ≤ d.length)
    (hi : i < p) : (writeAt d p bs)[i]? = d[i]? := by
  rw [writeAt_eq_of_le d bs p hp, List.append_assoc,
    List.getElem?_append_left (by simp; omega),
    List.getElem?_take_of_lt hi]

/-- Bytes at or beyond the end of the written range are unchanged. -/
lemma writeAt_getElem?_ge (d bs : List Nat) (p i : Nat)
    (hi : p + bs.length ≤ i) : (writeAt d p bs)[i]? = d[i]? := by
  by_cases hp : p ≤ d.length
  · rw [writeAt_eq_of_le d bs p hp]
    have h1 : ((d.take p ++ bs).length ≤ i) := by simp; omega
    rw [List.getElem?_append_right h1, List.getElem?_drop]
    congr 1
    simp
    omega
  · push_neg at hp
    have hd : d.drop (p + bs.length) = [] := List.drop_eq_nil_of_le (by omega)
    have hlen : (writeAt d p bs).length = p + bs.length := by
      rw [writeAt_length]; omega
    rw [List.getElem?_eq_none (by omega), List.getElem?_eq_none (by omega)]

/-- Two consecutive writes are one write of the concatenation. -/
lemma writeAt_writeAt (d b1 b2 : List Nat) (p : Nat) (hp : p ≤ d.length) :
    writeAt (writeAt d p b1) (p + b1.length) b2 = writeAt d p (b1 ++ b2) := by
  have htp : (d.take p).length = p := by simp; omega
  have hX : (d.take p ++ b1).length = p + b1.length := by simp [htp]
  have hle : p + b1.length ≤ (writeAt d p b1).length := by rw [writeAt_length]; omega
  rw [writeAt_eq_of_le d b1 p hp, writeAt_eq_of_le d (b1 ++ b2) p hp,
    writeAt_eq_of_le _ b2 (p + b1.length) (by rw [← writeAt_eq_of_le d b1 p hp]; exact hle)]
  have htake : ((d.take p ++ b1) ++ d.drop (p + b1.length)).take (p + b1.length) =
      d.take p ++ b1 := by
    rw [List.take_append_eq_append_take, hX, Nat.sub_self, List.take_zero,
      List.append_nil, List.take_of_length_le (le_of_eq hX)]
  have hdrop : ((d.take p ++ b1) ++ d.drop (p + b1.length)).drop
      (p + b1.length + b2.length) = d.drop (p + b1.length + b2.length) := by
    rw [List.drop_append_eq_append_drop, hX,
      List.drop_eq_nil_of_le (by omega), List.nil_append, List.drop_drop]
    congr 1
    omega
  rw [show d.take p ++ b1 ++ d.drop (p + b1.length) =
    (d.take p ++ b1) ++ d.drop (p + b1.length) from rfl, htake, hdrop]
  simp only [List.append_assoc, List.length_append]
  congr 3
  congr 1
  omega

/-! ## Characterization of the copy loops on an error-free source -/

/-- The sector-by-sector loop on an error-free source: starting with
`copied = srcPos = c` and a destination position inside the file, the loop
succeeds; it stops at `min total data.length`, having written the source
bytes `c ..` that stopping point consecutively at the destination position,
with the progress counter last updated at the stopping point (and untouched
when no iteration copies anything). -/
lemma cloneSectorLoop_plain (bufSize : Nat) (hbuf : 0 < bufSize) (data : List Nat)
    (total : Nat) :
    ∀ n c dst dstPos prog, total - c ≤ n → dstPos ≤ dst.length →
      cloneSectorLoop bufSize ⟨data, none⟩ total c dst dstPos c prog =
        if min total data.length ≤ c then ⟨.ok (), dst, prog⟩
        else ⟨.ok (), writeAt dst dstPos ((data.drop c).take (min total data.length - c)),
          update_progress (min total data.length) total⟩ := by
  intro n
  induction n with
  | zero =>
      intro c dst dstPos prog hn hdp
      rw [cloneSectorLoop]
      rw [dif_neg (by omega : ¬ c < total), if_pos (by omega)]
  | succ n ih =>
      intro c dst dstPos prog hn hdp
      rw [cloneSectorLoop]
      by_cases hct : c < total
      · rw [dif_pos hct]
        simp only [SrcFile.readAt]
        set toRead := min bufSize (total - c) with htr
        set bs := (data.drop c).take toRead with hbs
        have hnb : bs.length = min toRead (data.length - c) := by simp [hbs]
        by_cases hcl : data.length ≤ c
        · have hz : bs.length = 0 := by omega
          rw [dif_pos hz, if_pos (by omega)]
        · push_neg at hcl
          have hz : ¬ bs.length = 0 := by
            have : 0 < toRead := by omega
            omega
          rw [dif_neg hz]
          have hrec := ih (c + bs.length) (writeAt dst dstPos bs) (dstPos + bs.length)
            (update_progress (c + bs.length) total)
            (by omega)
            (by rw [writeAt_length]; omega)
          rw [hrec]
          set M := min total data.length with hM
          have hnbM : c + bs.length ≤ M := by omega
          have hcM : ¬ M ≤ c := by omega
          rw [if_neg hcM]
          by_cases hA : M ≤ c + bs.length
          · rw [if_pos hA]
            have hMeq : c + bs.length = M := by omega
            have hbseq : bs = (data.drop c).take (M - c) := by
              rw [hbs, List.take_eq_take]
              simp
              omega
            simp only [hMeq, ← hbseq]
          · rw [if_neg hA]
            rw [writeAt_writeAt dst bs _ dstPos hdp]
            have hbseq : bs = (data.drop c).take bs.length := by
              rw [hbs, List.take_eq_take]
              simp
            have hsplit : (data.drop c).take (M - c) =
                bs ++ (data.drop (c + bs.length)).take (M - (c + bs.length)) := by
              conv_lhs => rw [show M - c = bs.length + (M - (c + bs.length)) by omega]
              rw [List.take_add, List.drop_drop, ← hbseq]
            rw [hsplit]
      · rw [dif_neg hct, if_pos (by omega)]

/-- The `smart_clone` loop on an error-free source behaves exactly like the
sector-by-sector loop with `used_space` as the target total. -/
lemma smartCloneLoop_plain (bufSize : Nat) (hbuf : 0 < bufSize) (data : List Nat)
    (used : Nat) :
    ∀ n c dst dstPos prog, used - c ≤ n → dstPos ≤ dst.length →
      smartCloneLoop bufSize ⟨data, none⟩ used c dst dstPos c prog =
        if min used data.length ≤ c then ⟨.ok (), dst, prog⟩
        else ⟨.ok (), writeAt dst dstPos ((data.drop c).take (min used data.length - c)),
          update_progress (min used data.length) used⟩ := by
  intro n
  induction n with
  | zero =>
      intro c dst dstPos prog hn hdp
      rw [smartCloneLoop]
      rw [dif_neg (by omega : ¬ c < used), if_pos (by omega)]
  | succ n ih =>
      intro c dst dstPos prog hn hdp
      rw [smartCloneLoop]
      by_cases hct : c < used
      · rw [dif_pos hct]
        simp only [SrcFile.readAt]
        set toRead := min bufSize (used - c) with htr
        set bs := (data.drop c).take toRead with hbs
        have hnb : bs.length = min toRead (data.length - c) := by simp [hbs]
        by_cases hcl : data.length ≤ c
        · have hz : bs.length = 0 := by omega
          rw [dif_pos hz, if_pos (by omega)]
        · push_neg at hcl
          have hz : ¬ bs.length = 0 := by
            have : 0 < toRead := by omega
            omega
          rw [dif_neg hz]
          have hrec := ih (c + bs.length) (writeAt dst dstPos bs) (dstPos + bs.length)
            (update_progress (c + bs.length) used)
            (by omega)
            (by rw [writeAt_length]; omega)
          rw [hrec]
          set M := min used data.length with hM
          have hnbM : c + bs.length ≤ M := by omega
          have hcM : ¬ M ≤ c := by omega
          rw [if_neg hcM]
          by_cases hA : M ≤ c + bs.length
          · rw [if_pos hA]
            have hMeq : c + bs.length = M := by omega
            have hbseq : bs = (data.drop c).take (M - c) := by
              rw [hbs, List.take_eq_take]
              simp
              omega
            simp only [hMeq, ← hbseq]
          · rw [if_neg hA]
            rw [writeAt_writeAt dst bs _ dstPos hdp]
            have hbseq : bs = (data.drop c).take bs.length := by
              rw [hbs, List.take_eq_take]
              simp
            have hsplit : (data.drop c).take (M - c) =
                bs ++ (data.drop (c + bs.length)).take (M - (c + bs.length)) := by
              conv_lhs => rw [show M - c = bs.length + (M - (c + bs.length)) by omega]
              rw [List.take_add, List.drop_drop, ← hbseq]
            rw [hsplit]
      · rw [dif_neg hct, if_pos (by omega)]

/-! ## Characterization of the copy loops on a source with a failing region -/

/-- The sector-by-sector loop on a source whose reads fail with kind `k`
from position `p` onwards (`p` inside the copied range and within the
readable data): the loop copies up to `p`, the read at `p` fails, and when
`k` is the designated bad-sector signal `InvalidData` the loop returns
`BadSector` carrying exactly `p`, the number of bytes already copied;
every other kind is propagated as an I/O error. -/
lemma cloneSectorLoop_bad (bufSize : Nat) (hbuf : 0 < bufSize) (data : List Nat)
    (p : Nat) (k : IoKind) (total : Nat) (hp : p < total) (hpd : p ≤ data.length) :
    ∀ n c dst dstPos prog, p - c ≤ n → c ≤ p →
      (cloneSectorLoop bufSize ⟨data, some (p, k)⟩ total c dst dstPos c prog).res =
        .error (if k = IoKind.InvalidData then CloneError.BadSector p
          else CloneError.Io k) := by
  intro n
  induction n with
  | zero =>
      intro c dst dstPos prog hn hc
      have hcp : c = p := by omega
      subst hcp
      rw [cloneSectorLoop]
      rw [dif_pos (by omega : c < total)]
      simp only [SrcFile.readAt, if_pos (le_refl c)]
      by_cases hk : k = IoKind.InvalidData <;> simp [hk]
  | succ n ih =>
      intro c dst dstPos prog hn hc
      by_cases hcp : c = p
      · subst hcp
        rw [cloneSectorLoop]
        rw [dif_pos (by omega : c < total)]
        simp only [SrcFile.readAt, if_pos (le_refl c)]
        by_cases hk : k = IoKind.InvalidData <;> simp [hk]
      · have hclt : c < p := by omega
        rw [cloneSectorLoop]
        rw [dif_pos (by omega : c < total)]
        simp only [SrcFile.readAt, if_neg (by omega : ¬ p ≤ c)]
        set toRead := min bufSize (total - c) with htr
        set bs := (data.drop c).take (min toRead (p - c)) with hbs
        have hnb : bs.length = min (min toRead (p - c)) (data.length - c) := by
          simp [hbs]
        have hz : ¬ bs.length = 0 := by
          have : 0 < toRead := by omega
          omega
        rw [dif_neg hz]
        exact ih (c + bs.length) (writeAt dst dstPos bs) (dstPos + bs.length)
          (update_progress (c + bs.length) total) (by omega) (by omega)

/-- The `smart_clone` loop on a source whose reads fail with kind `k` from
position `p` onwards (`p` inside the used range and within the readable
data): the failing read is propagated as an I/O error regardless of its
kind — in particular `InvalidData` is NOT translated to `BadSector`. -/
lemma smartCloneLoop_bad (bufSize : Nat) (hbuf : 0 < bufSize) (data : List Nat)
    (p : Nat) (k : IoKind) (used : Nat) (hp : p < used) (hpd : p ≤ data.length) :
    ∀ n c dst dstPos prog, p - c ≤ n → c ≤ p →
      (smartCloneLoop bufSize ⟨data, some (p, k)⟩ used c dst dstPos c prog).res =
        .error (CloneError.Io k) := by
  intro n
  induction n with
  | zero =>
      intro c dst dstPos prog hn hc
      have hcp : c = p := by omega
      subst hcp
      rw [smartCloneLoop]
      rw [dif_pos (by omega : c < used)]
      simp only [SrcFile.readAt, if_pos (le_refl c)]
  | succ n ih =>
      intro c dst dstPos prog hn hc
      by_cases hcp : c = p
      · subst hcp
        rw [smartCloneLoop]
        rw [dif_pos (by omega : c < used)]
        simp only [SrcFile.readAt, if_pos (le_refl c)]
      · have hclt : c < p := by omega
        rw [smartCloneLoop]
        rw [dif_pos (by omega : c < used)]
        simp only [SrcFile.readAt, if_neg (by omega : ¬ p ≤ c)]
        set toRead := min bufSize (used - c) with htr
        set bs := (data.drop c).take (min toRead (p - c)) with hbs
        have hnb : bs.length = min (min toRead (p - c)) (data.length - c) := by
          simp [hbs]
        have hz : ¬ bs.length = 0 := by
          have : 0 < toRead := by omega
          omega
        rw [dif_neg hz]
        exact ih (c + bs.length) (writeAt dst dstPos bs) (dstPos + bs.length)
          (update_progress (c + bs.length) used) (by omega) (by omega)

/-! ## Observation helpers over the MBR wire format -/

/-- The partition type byte of entry `e` (byte offset 4 of the entry, the
table starting at `0x1BE`). -/
def entryType (d : List Nat) (e : Nat) : Nat :=
  d.getD (0x1BE + 16 * e + 4) 0

/-- The little-endian 32-bit `length_sectors` field of entry `e` (bytes
12..16 of the entry). -/
def entryLen (d : List Nat) (e : Nat) : Nat :=
  fromLe32 (d.getD (0x1BE + 16 * e + 12) 0) (d.getD (0x1BE + 16 * e + 13) 0)
    (d.getD (0x1BE + 16 * e + 14) 0) (d.getD (0x1BE + 16 * e + 15) 0)

/-! ## Helper lemmas about the partition-table rescaler -/

/-- Bytes inside the written range come from the written block. -/
lemma writeAt_getElem?_mid (d bs : List Nat) (p i : Nat) (hp : p ≤ d.length)
    (h1 : p ≤ i) (h2 : i < p + bs.length) :
    (writeAt d p bs)[i]? = bs[i - p]? := by
  rw [writeAt_eq_of_le d bs p hp, List.append_assoc]
  have htp : (d.take p).length = p := by simp; omega
  rw [List.getElem?_append_right (by omega : (d.take p).length ≤ i), htp,
    List.getElem?_append_left (by omega)]

/-- `getD` of an extracted window agrees with `getD` of the file. -/
lemma getD_drop_take (d : List Nat) (a j L : Nat) (hj : j < L) :
    ((d.drop a).take L).getD j 0 = d.getD (a + j) 0 := by
  rw [List.getD_eq_getElem?_getD, List.getD_eq_getElem?_getD,
    List.getElem?_take_of_lt hj, List.getElem?_drop]

/-- Decoding the four little-endian digits of `n` recovers `n` when it fits
in 32 bits. -/
lemma fromLe32_leBytes32 (n : Nat) (hn : n < 2 ^ 32) :
    fromLe32 ((leBytes32 n).getD 0 0) ((leBytes32 n).getD 1 0)
      ((leBytes32 n).getD 2 0) ((leBytes32 n).getD 3 0) = n := by
  simp only [leBytes32, fromLe32, List.getD]
  norm_num
  omega

/-- The scaled length always fits in four bytes. -/
lemma f64AsU32_lt (x : ℚ) : f64AsU32 x < 2 ^ 32 := by
  have : f64AsU32 x ≤ 2 ^ 32 - 1 := min_le_right _ _
  omega

/-- `adjustEntry` preserves the 16-byte entry size. -/
lemma adjustEntry_length (f : ℚ) (c : List Nat) (hc : c.length = 16) :
    (adjustEntry f c).length = 16 := by
  unfold adjustEntry
  split
  · simp [leBytes32]
    omega
  · exact hc

/-- `adjustEntry` never changes the first 12 bytes of an entry
(`type_code` at offset 4 and `start_sector` at 8..12 included). -/
lemma adjustEntry_getElem?_lt12 (f : ℚ) (ch : List Nat) (hc : ch.length = 16)
    (j : Nat) (hj : j < 12) : (adjustEntry f ch)[j]? = ch[j]? := by
  unfold adjustEntry
  split
  · rw [List.getElem?_append_left (by simp; omega), List.getElem?_take_of_lt hj]
  · rfl

/-- An empty entry (`type_code == 0`) is returned untouched. -/
lemma adjustEntry_of_type0 (f : ℚ) (ch : List Nat) (h : ch.getD 4 0 = 0) :
    adjustEntry f ch = ch := by
  unfold adjustEntry
  rw [if_neg (show ¬ ch.getD 4 0 ≠ 0 from fun hn => hn h)]

/-- The rewritten bytes 12..16 of a non-empty entry are the little-endian
digits of the scaled length. -/
lemma adjustEntry_getElem?_len (f : ℚ) (ch : List Nat) (hc : ch.length = 16)
    (ht : ch.getD 4 0 ≠ 0) (j : Nat) (hj : j < 4) :
    (adjustEntry f ch)[12 + j]? =
      (leBytes32 (f64AsU32 ((fromLe32 (ch.getD 12 0) (ch.getD 13 0) (ch.getD 14 0)
        (ch.getD 15 0) : ℚ) * f)))[j]? := by
  unfold adjustEntry
  rw [if_pos ht]
  rw [List.getElem?_append_right (by simp)]
  congr 1
  rw [List.length_take, hc]
  omega

/-- `adjustTable` preserves the 64-byte table size. -/
lemma adjustTable_length (f : ℚ) (t : List Nat) (ht : t.length = 64) :
    (adjustTable f t).length = 64 := by
  unfold adjustTable
  have h0 : (t.take 16).length = 16 := by simp; omega
  have h1 : ((t.drop 16).take 16).length = 16 := by simp; omega
  have h2 : ((t.drop 32).take 16).length = 16 := by simp; omega
  have h3 : (t.drop 48).length = 16 := by simp; omega
  simp [adjustEntry_length f _ h0, adjustEntry_length f _ h1,
    adjustEntry_length f _ h2, adjustEntry_length f _ h3]

/-- Indexing into four concatenated 16-byte blocks. -/
lemma getElem?_quad (A B C D : List Nat) (hA : A.length = 16) (hB : B.length = 16)
    (hC : C.length = 16) (i : Nat) :
    (A ++ B ++ C ++ D)[i]? =
      if i < 16 then A[i]?
      else if i < 32 then B[i - 16]?
      else if i < 48 then C[i - 32]?
      else D[i - 48]? := by
  rw [List.getElem?_append, List.getElem?_append, List.getElem?_append]
  simp only [List.length_append, hA, hB, hC]
  split_ifs <;> first | rfl | omega

/-- Byte `16 e + j` of the adjusted table is byte `j` of the adjusted
entry `e`, the entry being the 16-byte window at `16 e` of the table. -/
lemma adjustTable_getElem? (f : ℚ) (t : List Nat) (ht : t.length = 64)
    (e : Nat) (he : e < 4) (j : Nat) (hj : j < 16) :
    (adjustTable f t)[16 * e + j]? =
      (adjustEntry f ((t.drop (16 * e)).take 16))[j]? := by
  have h0 : (t.take 16).length = 16 := by simp; omega
  have h1 : ((t.drop 16).take 16).length = 16 := by simp; omega
  have h2 : ((t.drop 32).take 16).length = 16 := by simp; omega
  have h3 : (t.drop 48).length = 16 := by simp; omega
  unfold adjustTable
  rw [getElem?_quad _ _ _ _ (adjustEntry_length f _ h0) (adjustEntry_length f _ h1)
    (adjustEntry_length f _ h2)]
  interval_cases e
  · rw [if_pos (by omega)]
    norm_num
  · rw [if_neg (by omega), if_pos (by omega)]
    have hi : 16 * 1 + j - 16 = j := by omega
    rw [hi]
  · rw [if_neg (by omega), if_neg (by omega), if_pos (by omega)]
    have hi : 16 * 2 + j - 32 = j := by omega
    rw [hi]
  · have hi : 16 * 3 + j - 48 = j := by omega
    rw [if_neg (by omega), if_neg (by omega), if_neg (by omega), hi,
      show (16 * 3 : Nat) = 48 by norm_num, List.take_of_length_le (by omega)]

/-- Inversion of a successful `adjust_partition_table`: the file was at
least 510 bytes long and the result is the in-place write-back of the
adjusted 64-byte window at `0x1BE`. -/
lemma adjust_partition_table_ok (d : List Nat) (f : ℚ) (d' : List Nat)
    (h : adjust_partition_table d f = .ok d') :
    0x1BE + 64 ≤ d.length ∧
      d' = writeAt d 0x1BE (adjustTable f ((d.drop 0x1BE).take 64)) := by
  unfold adjust_partition_table at h
  split at h
  · exact ⟨by omega, by injection h with h; exact h.symm⟩
  · exact absurd h (by simp)

/-- The 16-byte window of the table at entry `e` is the 16-byte window of
the file at `0x1BE + 16 e`. -/
lemma table_chunk_eq (d : List Nat) (e : Nat) (he : e < 4) :
    (((d.drop 0x1BE).take 64).drop (16 * e)).take 16 =
      (d.drop (0x1BE + 16 * e)).take 16 := by
  rw [List.drop_take, List.take_take, List.drop_drop]
  congr 1
  omega

/-! ## Strategy-level characterizations on an error-free source -/

/-- `clone_sector_by_sector` on an error-free source with
`total = data.length`: the whole source is appended over the start of the
destination, and progress ends at 100 (untouched when the source is
empty). -/
lemma clone_sector_by_sector_plain (bufSize : Nat) (hbuf : 0 < bufSize)
    (data dst : List Nat) :
    clone_sector_by_sector bufSize ⟨data, none⟩ dst data.length =
      if data.length = 0 then ⟨.ok (), dst, 0⟩
      else ⟨.ok (), writeAt dst 0 data, 100⟩ := by
  unfold clone_sector_by_sector
  rw [cloneSectorLoop_plain bufSize hbuf data data.length data.length 0 dst 0 0
    (by omega) (by omega)]
  by_cases h0 : data.length = 0
  · rw [if_pos (by omega), if_pos h0]
  · rw [if_neg (by omega), if_neg h0]
    congr 1
    · simp
    · rw [update_progress, Nat.min_self, Nat.mul_comm, Nat.mul_div_assoc]
      · simp [Nat.div_self (by omega : 0 < data.length)]
      · exact dvd_refl _

/-- `smart_clone` on an error-free source holding at least `used_space`
bytes: exactly the first `used_space` bytes are appended over the start of
the destination, and progress ends at 100 (untouched when `used_space` is
0, since the loop body never runs). -/
lemma smart_clone_plain (bufSize : Nat) (hbuf : 0 < bufSize)
    (data dst : List Nat) (info : DiskInfo) (hud : info.used_space ≤ data.length) :
    smart_clone bufSize ⟨data, none⟩ dst info =
      if info.used_space = 0 then ⟨.ok (), dst, 0⟩
      else ⟨.ok (), writeAt dst 0 (data.take info.used_space), 100⟩ := by
  unfold smart_clone
  rw [smartCloneLoop_plain bufSize hbuf data info.used_space info.used_space 0 dst 0 0
    (by omega) (by omega)]
  by_cases h0 : info.used_space = 0
  · rw [if_pos (by omega), if_pos h0]
  · rw [if_neg (by omega), if_neg h0]
    have hmin : min info.used_space data.length = info.used_space := by omega
    congr 1
    · rw [hmin]
      simp
    · rw [hmin, update_progress, Nat.mul_comm, Nat.mul_div_assoc]
      · simp [Nat.div_self (by omega : 0 < info.used_space)]
      · exact dvd_refl _

/-! ## Claim theorems -/

/-- C1: For every source of size `sourceSize ≥ 0` and every positive chunk
size, the FullCopy strategy (`CloneMode::SectorBySector`,
`clone_sector_by_sector`) writes the source's bytes `0..sourceSize` to the
destination unchanged, so the destination's first `sourceSize` bytes equal
the source's bytes, independent of the chunk size used. -/
theorem c1_full_copy_faithful (bufSize : Nat) (hbuf : 0 < bufSize)
    (data dst : List Nat) :
    (clone_sector_by_sector bufSize ⟨data, none⟩ dst data.length).res = .ok () ∧
    (clone_sector_by_sector bufSize ⟨data, none⟩ dst data.length).dst.take data.length
      = data := by
  rw [clone_sector_by_sector_plain bufSize hbuf data dst]
  by_cases h0 : data.length = 0
  · rw [if_pos h0]
    exact ⟨rfl, by simp [List.eq_nil_of_length_eq_zero h0]⟩
  · rw [if_neg h0]
    refine ⟨rfl, ?_⟩
    rw [writeAt_zero]
    simp

/-- Witness for C1 at a concrete input. -/
theorem c1_witness :
    (clone_sector_by_sector 1 ⟨[5, 6], none⟩ [9] 2).res = .ok () ∧
    (clone_sector_by_sector 1 ⟨[5, 6], none⟩ [9] 2).dst.take 2 = [5, 6] :=
  c1_full_copy_faithful 1 (by decide) [5, 6] [9]

/-- C2 (amended): For every descriptor with
`0 < used_space ≤ total_size` and an error-free source providing at least
`used_space` bytes, the UsedOnly strategy (`CloneMode::SmartClone`,
`smart_clone`) copies exactly the first `used_space` bytes of the source
to the destination, writes nothing at destination offsets `≥ used_space`,
and leaves the progress counter at 100 (100% of `used_space`) on
completion.  (The amendment `0 < used_space` is forced: with
`used_space = 0` the loop body never runs and the counter keeps its
initial value 0 — see the counterexample.) -/
theorem c2_used_only_copies_exactly_used (bufSize : Nat) (hbuf : 0 < bufSize)
    (data dst : List Nat) (info : DiskInfo)
    (_hut : info.used_space ≤ info.total_size)
    (hud : info.used_space ≤ data.length)
    (hpos : 0 < info.used_space) :
    (smart_clone bufSize ⟨data, none⟩ dst info).res = .ok () ∧
    (smart_clone bufSize ⟨data, none⟩ dst info).dst.take info.used_space
      = data.take info.used_space ∧
    (∀ i, info.used_space ≤ i →
      (smart_clone bufSize ⟨data, none⟩ dst info).dst[i]? = dst[i]?) ∧
    (smart_clone bufSize ⟨data, none⟩ dst info).progress = 100 := by
  rw [smart_clone_plain bufSize hbuf data dst info hud, if_neg (by omega)]
  have hlen : (data.take info.used_space).length = info.used_space := by
    simp
    omega
  refine ⟨rfl, ?_, ?_, rfl⟩
  · rw [writeAt_zero, List.take_append_eq_append_take, hlen, Nat.sub_self,
      List.take_zero, List.append_nil, List.take_take, Nat.min_self]
  · intro i hi
    exact writeAt_getElem?_ge dst (data.take info.used_space) 0 i (by omega)

/-- Witness for C2 at a concrete input. -/
theorem c2_witness :
    (smart_clone 1 ⟨[3, 4], none⟩ [8, 8, 8] ⟨2, 1, 512⟩).res = .ok () ∧
    (smart_clone 1 ⟨[3, 4], none⟩ [8, 8, 8] ⟨2, 1, 512⟩).dst.take 1 = [3, 4].take 1 ∧
    (∀ i, 1 ≤ i →
      (smart_clone 1 ⟨[3, 4], none⟩ [8, 8, 8] ⟨2, 1, 512⟩).dst[i]? = [8, 8, 8][i]?) ∧
    (smart_clone 1 ⟨[3, 4], none⟩ [8, 8, 8] ⟨2, 1, 512⟩).progress = 100 :=
  c2_used_only_copies_exactly_used 1 (by decide) [3, 4] [8, 8, 8] ⟨2, 1, 512⟩
    (by decide) (by decide) (by decide)

/-- C2 counterexample: with `used_space = 0` (which satisfies
`used_space ≤ total_size` and needs no source bytes) the loop never runs,
so the progress counter stays at its initial value 0 — not at 100% of
`used_space` — refuting the unamended claim. -/
theorem c2_counterexample_zero_used :
    (smart_clone 1 ⟨[], none⟩ [] ⟨5, 0, 512⟩).progress = 0 ∧
    (smart_clone 1 ⟨[], none⟩ [] ⟨5, 0, 512⟩).progress ≠ 100 := by
  have h : smart_clone 1 ⟨[], none⟩ [] ⟨5, 0, 512⟩ = ⟨.ok (), [], 0⟩ := by
    unfold smart_clone
    rw [smartCloneLoop]
    rw [dif_neg (by decide)]
  rw [h]
  exact ⟨rfl, by decide⟩

/-- C3: For every pair of files whose resolved descriptors satisfy
`source.total_size > dest.total_size`, and every mode other than UsedOnly
(`SmartClone`), `clone_disk` returns `CloneError::DiskSizeMismatch` and
performs zero writes to the destination: the destination's contents (and
the progress counter) are exactly what they were before the call. -/
theorem c3_size_mismatch_is_preflight (mode : CloneMode) (bufSize : Nat)
    (src : SrcFile) (dst : List Nat) (hm : mode ≠ CloneMode.SmartClone)
    (hsz : dst.length < src.data.length) :
    clone_disk mode bufSize (some src) (some dst) =
      ⟨.error CloneError.DiskSizeMismatch, some dst, 0⟩ := by
  unfold clone_disk
  dsimp only
  rw [if_pos ⟨hsz, hm⟩]

/-- Witness for C3 at a concrete input. -/
theorem c3_witness :
    clone_disk CloneMode.SectorBySector 1 (some ⟨[0], none⟩) (some []) =
      ⟨.error CloneError.DiskSizeMismatch, some [], 0⟩ :=
  c3_size_mismatch_is_preflight CloneMode.SectorBySector 1 ⟨[0], none⟩ []
    (by decide) (by decide)

/-- C7 (amended): Only the SectorBySector strategy translates a source
read failing with the designated bad-sector signal
(`io::ErrorKind::InvalidData`) after exactly `N` bytes copied into
`CloneError::BadSector(N)` carrying exactly `N`, and propagates every
other read-error kind as an I/O error; the SmartClone strategy (also used
by AutoFit for its copy phase) propagates every read error — including
`InvalidData` — as an I/O error and never produces `BadSector`. -/
theorem c7_bad_sector_translation (bufSize total p : Nat) (data dst : List Nat)
    (k : IoKind) (info : DiskInfo) (hbuf : 0 < bufSize) (hpt : p < total)
    (hpu : p < info.used_space) (hpd : p ≤ data.length) :
    (clone_sector_by_sector bufSize ⟨data, some (p, IoKind.InvalidData)⟩ dst total).res
        = .error (CloneError.BadSector p) ∧
    (k ≠ IoKind.InvalidData →
      (clone_sector_by_sector bufSize ⟨data, some (p, k)⟩ dst total).res
        = .error (CloneError.Io k)) ∧
    (smart_clone bufSize ⟨data, some (p, k)⟩ dst info).res
        = .error (CloneError.Io k) := by
  refine ⟨?_, ?_, ?_⟩
  · have h := cloneSectorLoop_bad bufSize hbuf data p IoKind.InvalidData total hpt hpd
      p 0 dst 0 0 (by omega) (by omega)
    unfold clone_sector_by_sector
    rw [h, if_pos rfl]
  · intro hk
    have h := cloneSectorLoop_bad bufSize hbuf data p k total hpt hpd
      p 0 dst 0 0 (by omega) (by omega)
    unfold clone_sector_by_sector
    rw [h, if_neg hk]
  · have h := smartCloneLoop_bad bufSize hbuf data p k info.used_space hpu hpd
      p 0 dst 0 0 (by omega) (by omega)
    unfold smart_clone
    exact h

/-- Witness for C7 (amended) at concrete inputs. -/
theorem c7_witness :
    (clone_sector_by_sector 2 ⟨[0, 0, 0], some (1, IoKind.InvalidData)⟩ [] 3).res
        = .error (CloneError.BadSector 1) ∧
    (clone_sector_by_sector 2 ⟨[0, 0, 0], some (1, IoKind.Other)⟩ [] 3).res
        = .error (CloneError.Io IoKind.Other) ∧
    (smart_clone 2 ⟨[0, 0, 0], some (1, IoKind.Other)⟩ [] ⟨3, 2, 512⟩).res
        = .error (CloneError.Io IoKind.Other) := by
  have h := c7_bad_sector_translation 2 3 1 [0, 0, 0] [] IoKind.Other ⟨3, 2, 512⟩
    (by decide) (by decide) (by decide) (by decide)
  exact ⟨h.1, h.2.1 (by decide), h.2.2⟩

/-- C7 counterexample: in `smart_clone` (the UsedOnly strategy, also the
copy phase of AutoFit), a read failing with `InvalidData` after exactly 1
byte copied is surfaced as `CloneError::Io(InvalidData)`, not as
`CloneError::BadSector(1)` — `smart_clone` has no bad-sector translation
(`Err(e) => return Err(e.into())`), refuting the claim for two of the
three strategies. -/
theorem c7_counterexample_smart_no_bad_sector :
    (smart_clone 1 ⟨[7, 7, 7], some (1, IoKind.InvalidData)⟩ [] ⟨3, 3, 512⟩).res
        = .error (CloneError.Io IoKind.InvalidData) ∧
    (smart_clone 1 ⟨[7, 7, 7], some (1, IoKind.InvalidData)⟩ [] ⟨3, 3, 512⟩).res
        ≠ .error (CloneError.BadSector 1) := by
  have h : (smart_clone 1 ⟨[7, 7, 7], some (1, IoKind.InvalidData)⟩ [] ⟨3, 3, 512⟩).res
      = .error (CloneError.Io IoKind.InvalidData) :=
    smartCloneLoop_bad 1 (by decide) [7, 7, 7] 1 IoKind.InvalidData 3
      (by decide) (by decide) 1 0 [] 0 0 (by decide) (by decide)
  refine ⟨h, ?_⟩
  rw [h]
  decide

/-- C9 refuted (code bug): `clone_disk` resolves the destination's
descriptor with `get_disk_info(dest_path)` — a plain `File::open` — BEFORE
the write-capable `OpenOptions::new().write(true).create(true)` open, so
for an absent destination it fails with a `NotFound` I/O error and never
reaches the `create(true)` open: the destination is not created and no
copy happens, for every mode and every readable source. -/
theorem c9_absent_destination_fails (mode : CloneMode) (bufSize : Nat)
    (src : SrcFile) :
    clone_disk mode bufSize (some src) none =
      ⟨.error (CloneError.Io IoKind.NotFound), none, 0⟩ := by
  unfold clone_disk
  rfl

/-! ## Entry-level consequences of a successful rescale -/

/-- A byte of an extracted 16-byte window, seen from the whole file. -/
lemma chunk_getElem? (d : List Nat) (a j : Nat) (hj : j < 16) :
    ((d.drop a).take 16)[j]? = d[a + j]? := by
  rw [List.getElem?_take_of_lt hj, List.getElem?_drop]

/-- Byte `j` of entry `e` of the destination after a successful rescale is
byte `j` of the adjusted 16-byte window of the old destination. -/
lemma adjusted_entry_byte (d : List Nat) (factor : ℚ) (d' : List Nat)
    (h : adjust_partition_table d factor = .ok d') (e : Nat) (he : e < 4)
    (j : Nat) (hj : j < 16) :
    d'[0x1BE + 16 * e + j]? =
      (adjustEntry factor ((d.drop (0x1BE + 16 * e)).take 16))[j]? := by
  obtain ⟨hd, hw⟩ := adjust_partition_table_ok d factor d' h
  have htl : ((d.drop 0x1BE).take 64).length = 64 := by
    simp
    omega
  have hT : (adjustTable factor ((d.drop 0x1BE).take 64)).length = 64 :=
    adjustTable_length _ _ htl
  rw [hw, writeAt_getElem?_mid d _ 0x1BE (0x1BE + 16 * e + j) (by omega) (by omega)
    (by rw [hT]; omega)]
  rw [show 0x1BE + 16 * e + j - 0x1BE = 16 * e + j by omega]
  rw [adjustTable_getElem? factor _ htl e he j hj, table_chunk_eq d e he]

/-- A decoded 32-bit field is always below `2 ^ 32`. -/
lemma fromLe32_lt (b0 b1 b2 b3 : Nat) : fromLe32 b0 b1 b2 b3 < 2 ^ 32 := by
  unfold fromLe32
  have h0 : b0 % 256 < 256 := Nat.mod_lt _ (by norm_num)
  have h1 : b1 % 256 < 256 := Nat.mod_lt _ (by norm_num)
  have h2 : b2 % 256 < 256 := Nat.mod_lt _ (by norm_num)
  have h3 : b3 % 256 < 256 := Nat.mod_lt _ (by norm_num)
  norm_num
  omega

/-- After a successful rescale, the length field of a non-empty entry
holds exactly the Rust-cast (`as u32`, truncating and saturating) of
`length_sectors * factor`. -/
lemma rescaled_entry_len (d : List Nat) (factor : ℚ) (e : Nat) (he : e < 4)
    (ht : entryType d e ≠ 0) (d' : List Nat)
    (h : adjust_partition_table d factor = .ok d') :
    entryLen d' e = f64AsU32 ((entryLen d e : ℚ) * factor) := by
  have hd : 0x1BE + 64 ≤ d.length := (adjust_partition_table_ok d factor d' h).1
  have hch : ((d.drop (0x1BE + 16 * e)).take 16).length = 16 := by
    simp
    omega
  have htype : ((d.drop (0x1BE + 16 * e)).take 16).getD 4 0 ≠ 0 := by
    rw [getD_drop_take d _ 4 16 (by omega)]
    exact ht
  have hLeq : fromLe32 (((d.drop (0x1BE + 16 * e)).take 16).getD 12 0)
      (((d.drop (0x1BE + 16 * e)).take 16).getD 13 0)
      (((d.drop (0x1BE + 16 * e)).take 16).getD 14 0)
      (((d.drop (0x1BE + 16 * e)).take 16).getD 15 0) = entryLen d e := by
    unfold entryLen
    rw [getD_drop_take d _ 12 16 (by omega), getD_drop_take d _ 13 16 (by omega),
      getD_drop_take d _ 14 16 (by omega), getD_drop_take d _ 15 16 (by omega)]
  have hbytes : ∀ j, j < 4 → d'.getD (0x1BE + 16 * e + (12 + j)) 0
      = (leBytes32 (f64AsU32 ((entryLen d e : ℚ) * factor))).getD j 0 := by
    intro j hj
    rw [List.getD_eq_getElem?_getD, List.getD_eq_getElem?_getD,
      adjusted_entry_byte d factor d' h e he (12 + j) (by omega),
      adjustEntry_getElem?_len factor _ hch htype j hj, hLeq]
  have h12 := hbytes 0 (by omega)
  have h13 := hbytes 1 (by omega)
  have h14 := hbytes 2 (by omega)
  have h15 := hbytes 3 (by omega)
  rw [show 0x1BE + 16 * e + (12 + 0) = 0x1BE + 16 * e + 12 by omega] at h12
  rw [show 0x1BE + 16 * e + (12 + 1) = 0x1BE + 16 * e + 13 by omega] at h13
  rw [show 0x1BE + 16 * e + (12 + 2) = 0x1BE + 16 * e + 14 by omega] at h14
  rw [show 0x1BE + 16 * e + (12 + 3) = 0x1BE + 16 * e + 15 by omega] at h15
  have hfin : entryLen d' e =
      fromLe32 ((leBytes32 (f64AsU32 ((entryLen d e : ℚ) * factor))).getD 0 0)
        ((leBytes32 (f64AsU32 ((entryLen d e : ℚ) * factor))).getD 1 0)
        ((leBytes32 (f64AsU32 ((entryLen d e : ℚ) * factor))).getD 2 0)
        ((leBytes32 (f64AsU32 ((entryLen d e : ℚ) * factor))).getD 3 0) := by
    unfold entryLen
    rw [h12, h13, h14, h15]
    rfl
  rw [hfin, fromLe32_leBytes32 _ (f64AsU32_lt _)]

/-- C5: For every non-empty partition entry (`type_code != 0`) and every
factor whose scaled length fits in 32 bits, a successful rescale stores
`length_sectors * factor` truncated toward zero as the new little-endian
length; in particular with factor 1 every non-empty entry's
`length_sectors` is unchanged. -/
theorem c5_rescale_truncated_value (d : List Nat) (factor : ℚ) (e : Nat)
    (he : e < 4) (ht : entryType d e ≠ 0)
    (hfit : (⌊(entryLen d e : ℚ) * factor⌋).toNat < 2 ^ 32) :
    ∀ d', adjust_partition_table d factor = .ok d' →
      entryLen d' e = (⌊(entryLen d e : ℚ) * factor⌋).toNat ∧
      (factor = 1 → entryLen d' e = entryLen d e) := by
  intro d' h
  have hgen := rescaled_entry_len d factor e he ht d' h
  constructor
  · rw [hgen]
    unfold f64AsU32
    omega
  · intro hf1
    rw [hgen, hf1, mul_one]
    unfold f64AsU32
    rw [Int.floor_natCast, Int.toNat_natCast]
    have hlt : entryLen d e < 2 ^ 32 := fromLe32_lt _ _ _ _
    omega

/-- C6: For every factor and every destination long enough to hold the
64-byte table at `0x1BE`, the rescale modifies only bytes 12–15 (the
little-endian `length_sectors` field) of entries whose `type_code` is
nonzero: the file keeps its length, every byte outside the 64-byte table
window is unchanged, bytes 0–11 of every entry (covering `type_code` at
offset 4 and `start_sector` at 8–11) are unchanged, and all 16 bytes of
every empty entry (`type_code == 0`) are unchanged. -/
theorem c6_rescale_frame (d : List Nat) (factor : ℚ) (d' : List Nat)
    (h : adjust_partition_table d factor = .ok d') :
    d'.length = d.length ∧
    (∀ i, i < 0x1BE → d'[i]? = d[i]?) ∧
    (∀ i, 0x1BE + 64 ≤ i → d'[i]? = d[i]?) ∧
    (∀ e, e < 4 → ∀ j, j < 12 →
      d'[0x1BE + 16 * e + j]? = d[0x1BE + 16 * e + j]?) ∧
    (∀ e, e < 4 → entryType d e = 0 →
      ∀ j, j < 16 → d'[0x1BE + 16 * e + j]? = d[0x1BE + 16 * e + j]?) := by
  obtain ⟨hd, hw⟩ := adjust_partition_table_ok d factor d' h
  have htl : ((d.drop 0x1BE).take 64).length = 64 := by
    simp
    omega
  have hT : (adjustTable factor ((d.drop 0x1BE).take 64)).length = 64 :=
    adjustTable_length _ _ htl
  have hch : ∀ e, e < 4 → ((d.drop (0x1BE + 16 * e)).take 16).length = 16 := by
    intro e he
    simp
    omega
  refine ⟨?_, ?_, ?_, ?_, ?_⟩
  · rw [hw, writeAt_length, hT]
    omega
  · intro i hi
    rw [hw, writeAt_getElem?_lt d _ 0x1BE i (by omega) hi]
  · intro i hi
    rw [hw, writeAt_getElem?_ge d _ 0x1BE i (by rw [hT]; omega)]
  · intro e he j hj
    rw [adjusted_entry_byte d factor d' h e he j (by omega),
      adjustEntry_getElem?_lt12 factor _ (hch e he) j hj,
      chunk_getElem? d _ j (by omega)]
  · intro e he ht j hj
    have h0 : ((d.drop (0x1BE + 16 * e)).take 16).getD 4 0 = 0 := by
      rw [getD_drop_take d _ 4 16 (by omega)]
      exact ht
    rw [adjusted_entry_byte d factor d' h e he j hj,
      adjustEntry_of_type0 factor _ h0, chunk_getElem? d _ j hj]

/-- C4 refuted (code bug): on a non-empty entry with
`length_sectors = u32::MAX` and factor 2 — so that
`length_sectors * factor` exceeds `2 ^ 32 - 1` — `adjust_partition_table`
does NOT fail with `CloneError::InvalidLayout` (that variant is never
constructed anywhere in the program): it succeeds, silently storing the
saturated value `u32::MAX` (Rust's float-to-int `as u32` cast saturates)
in the 32-bit length field. -/
theorem c4_overflow_saturates_not_invalid_layout :
    entryType overflowDisk 0 ≠ 0 ∧
    (2 ^ 32 - 1 : ℚ) < (entryLen overflowDisk 0 : ℚ) * 2 ∧
    adjust_partition_table overflowDisk 2 =
      .ok (writeAt overflowDisk 0x1BE
        (adjustTable 2 ((overflowDisk.drop 0x1BE).take 64))) ∧
    adjust_partition_table overflowDisk 2 ≠ .error CloneError.InvalidLayout ∧
    entryLen (writeAt overflowDisk 0x1BE
      (adjustTable 2 ((overflowDisk.drop 0x1BE).take 64))) 0 = 2 ^ 32 - 1 := by
  have hadj : adjust_partition_table overflowDisk 2 =
      .ok (writeAt overflowDisk 0x1BE
        (adjustTable 2 ((overflowDisk.drop 0x1BE).take 64))) := by
    unfold adjust_partition_table
    rw [if_pos (by decide)]
  have hlen : entryLen overflowDisk 0 = 4294967295 := by decide
  have hgen := rescaled_entry_len overflowDisk 2 0 (by norm_num) (by decide) _ hadj
  have hcast : ((4294967295 : Nat) : ℚ) * 2 = ((8589934590 : Nat) : ℚ) := by
    push_cast
    norm_num
  refine ⟨by decide, ?_, hadj, by rw [hadj]; simp, ?_⟩
  · rw [hlen]
    push_cast
    norm_num
  · rw [hgen, hlen]
    unfold f64AsU32
    rw [hcast, Int.floor_natCast, Int.toNat_natCast]
    norm_num

/-- Witness for C5 at a concrete disk: entry 0 has `length_sectors = 1000`
and a rescale by factor 2 succeeds and stores `2000`. -/
theorem c5_witness :
    adjust_partition_table sampleDisk 2 =
      .ok (writeAt sampleDisk 0x1BE
        (adjustTable 2 ((sampleDisk.drop 0x1BE).take 64))) ∧
    entryLen sampleDisk 0 = 1000 ∧
    entryLen (writeAt sampleDisk 0x1BE
      (adjustTable 2 ((sampleDisk.drop 0x1BE).take 64))) 0 = 2000 := by
  have hadj : adjust_partition_table sampleDisk 2 =
      .ok (writeAt sampleDisk 0x1BE
        (adjustTable 2 ((sampleDisk.drop 0x1BE).take 64))) := by
    unfold adjust_partition_table
    rw [if_pos (by decide)]
  have hlen1000 : entryLen sampleDisk 0 = 1000 := by decide
  have hcast : ((1000 : Nat) : ℚ) * 2 = ((2000 : Nat) : ℚ) := by
    push_cast
    norm_num
  have hfit : (⌊(entryLen sampleDisk 0 : ℚ) * 2⌋).toNat < 2 ^ 32 := by
    rw [hlen1000, hcast, Int.floor_natCast, Int.toNat_natCast]
    norm_num
  have h := c5_rescale_truncated_value sampleDisk 2 0 (by norm_num) (by decide)
    hfit _ hadj
  refine ⟨hadj, hlen1000, ?_⟩
  rw [h.1, hlen1000, hcast, Int.floor_natCast, Int.toNat_natCast]

/-- Witness for C6 at a concrete disk: a successful rescale by factor 2
keeps the length, bytes outside the table, the `type_code` byte of the
non-empty entry 0, and the bytes of the empty entry 1. -/
theorem c6_witness :
    (writeAt sampleDisk 0x1BE
      (adjustTable 2 ((sampleDisk.drop 0x1BE).take 64))).length
        = sampleDisk.length ∧
    (writeAt sampleDisk 0x1BE
      (adjustTable 2 ((sampleDisk.drop 0x1BE).take 64)))[0]? = sampleDisk[0]? ∧
    (writeAt sampleDisk 0x1BE
      (adjustTable 2 ((sampleDisk.drop 0x1BE).take 64)))[0x1BE + 16 * 0 + 4]?
        = sampleDisk[0x1BE + 16 * 0 + 4]? ∧
    (writeAt sampleDisk 0x1BE
      (adjustTable 2 ((sampleDisk.drop 0x1BE).take 64)))[0x1BE + 16 * 1 + 13]?
        = sampleDisk[0x1BE + 16 * 1 + 13]? := by
  have hadj : adjust_partition_table sampleDisk 2 =
      .ok (writeAt sampleDisk 0x1BE
        (adjustTable 2 ((sampleDisk.drop 0x1BE).take 64))) := by
    unfold adjust_partition_table
    rw [if_pos (by decide)]
  have h := c6_rescale_frame sampleDisk 2 _ hadj
  exact ⟨h.1, h.2.1 0 (by norm_num), h.2.2.2.1 0 (by norm_num) 4 (by norm_num),
    h.2.2.2.2 1 (by norm_num) (by decide) 13 (by norm_num)⟩

/-- Frame of the copy phase: a write of the leading `u` source bytes at
offset 0 leaves every destination byte at an offset `≥ data.length`
unchanged (for `u ≤ data.length`). -/
lemma written_frame (data dst : List Nat) (u i : Nat)
    (hi : data.length ≤ i) : (writeAt dst 0 (data.take u))[i]? = dst[i]? := by
  apply writeAt_getElem?_ge
  simp
  omega

/-- C10: `clone_disk` on an error-free source never truncates or shrinks a
pre-existing destination (opened with `create` but without `truncate`, and
the strategies write sequentially from offset 0): whatever the mode, the
resulting destination is at least as long as before, and every
pre-existing byte at an offset at or beyond the copied range
(`data.length`, since `clone_disk` resolves both `total_size` and
`used_space` as the file length) keeps its prior value — except, in
AutoFit mode, possibly the 64 table bytes at `0x1BE`. -/
theorem c10_no_truncation (mode : CloneMode) (bufSize : Nat) (hbuf : 0 < bufSize)
    (data dst : List Nat) :
    ∀ d', (clone_disk mode bufSize (some ⟨data, none⟩) (some dst)).dstFile = some d' →
      dst.length ≤ d'.length ∧
      ∀ i, data.length ≤ i →
        (mode = CloneMode.AutoFit → i < 0x1BE ∨ 0x1BE + 64 ≤ i) →
        d'[i]? = dst[i]? := by
  intro d' hd'
  unfold clone_disk at hd'
  dsimp only at hd'
  by_cases hg : dst.length < data.length ∧ mode ≠ CloneMode.SmartClone
  · rw [if_pos hg] at hd'
    injection hd' with hd'
    subst hd'
    exact ⟨le_refl _, fun i _ _ => rfl⟩
  · rw [if_neg hg] at hd'
    cases mode with
    | SectorBySector =>
        dsimp only at hd'
        rw [clone_sector_by_sector_plain bufSize hbuf data dst] at hd'
        by_cases h0 : data.length = 0
        · rw [if_pos h0] at hd'
          injection hd' with hd'
          subst hd'
          exact ⟨le_refl _, fun i _ _ => rfl⟩
        · rw [if_neg h0] at hd'
          injection hd' with hd'
          subst hd'
          refine ⟨by rw [writeAt_length]; omega, fun i hi _ => ?_⟩
          have hw : writeAt dst 0 data = writeAt dst 0 (data.take data.length) := by
            rw [List.take_length]
          rw [hw, written_frame data dst data.length i hi]
    | SmartClone =>
        dsimp only at hd'
        rw [smart_clone_plain bufSize hbuf data dst ⟨data.length, data.length, 512⟩
          (le_refl _)] at hd'
        dsimp only at hd'
        by_cases h0 : data.length = 0
        · rw [if_pos h0] at hd'
          injection hd' with hd'
          subst hd'
          exact ⟨le_refl _, fun i _ _ => rfl⟩
        · rw [if_neg h0] at hd'
          injection hd' with hd'
          subst hd'
          refine ⟨by rw [writeAt_length]; omega, fun i hi _ => ?_⟩
          exact written_frame data dst data.length i hi
    | AutoFit =>
        dsimp only at hd'
        unfold auto_fit_clone at hd'
        rw [smart_clone_plain bufSize hbuf data dst ⟨data.length, data.length, 512⟩
          (le_refl _)] at hd'
        dsimp only at hd'
        by_cases h0 : data.length = 0
        · rw [if_pos h0] at hd'
          dsimp only at hd'
          cases hAdj : adjust_partition_table dst
              ((dst.length : ℚ) / (data.length : ℚ)) with
          | error e =>
              rw [hAdj] at hd'
              dsimp only at hd'
              injection hd' with hd'
              subst hd'
              exact ⟨le_refl _, fun i _ _ => rfl⟩
          | ok d2 =>
              rw [hAdj] at hd'
              dsimp only at hd'
              injection hd' with hd'
              subst hd'
              obtain ⟨hdlen, hw⟩ := adjust_partition_table_ok _ _ _ hAdj
              have htl : ((dst.drop 0x1BE).take 64).length = 64 := by
                simp
                omega
              have hT := adjustTable_length ((dst.length : ℚ) / (data.length : ℚ)) _ htl
              refine ⟨by rw [hw, writeAt_length, hT]; omega, fun i hi hokr => ?_⟩
              rcases hokr rfl with hlt | hge
              · rw [hw, writeAt_getElem?_lt _ _ 0x1BE i (by omega) hlt]
              · rw [hw, writeAt_getElem?_ge _ _ 0x1BE i (by rw [hT]; omega)]
        · rw [if_neg h0] at hd'
          rw [List.take_length] at hd'
          dsimp only at hd'
          cases hAdj : adjust_partition_table (writeAt dst 0 data)
              ((dst.length : ℚ) / (data.length : ℚ)) with
          | error e =>
              rw [hAdj] at hd'
              dsimp only at hd'
              injection hd' with hd'
              subst hd'
              refine ⟨by rw [writeAt_length]; omega, fun i hi _ => ?_⟩
              have hfr := written_frame data dst data.length i hi
              rwa [List.take_length] at hfr
          | ok d2 =>
              rw [hAdj] at hd'
              dsimp only at hd'
              injection hd' with hd'
              subst hd'
              obtain ⟨hdlen, hw⟩ := adjust_partition_table_ok _ _ _ hAdj
              have htl : (((writeAt dst 0 data).drop 0x1BE).take 64).length
                  = 64 := by
                simp
                omega
              have hT := adjustTable_length ((dst.length : ℚ) / (data.length : ℚ)) _ htl
              have hD1len : dst.length ≤ (writeAt dst 0 data).length := by
                rw [writeAt_length]
                omega
              refine ⟨by rw [hw, writeAt_length, hT]; omega, fun i hi hokr => ?_⟩
              have hmid : (writeAt dst 0 data)[i]? = dst[i]? := by
                have hfr := written_frame data dst data.length i hi
                rwa [List.take_length] at hfr
              rcases hokr rfl with hlt | hge
              · rw [hw, writeAt_getElem?_lt _ _ 0x1BE i (by omega) hlt, hmid]
              · rw [hw, writeAt_getElem?_ge _ _ 0x1BE i (by rw [hT]; omega), hmid]

/-- Witness for C10 at a concrete input: FullCopy of a 1-byte source onto
a 3-byte pre-existing destination keeps the trailing old bytes. -/
theorem c10_witness :
    (clone_disk CloneMode.SectorBySector 1 (some ⟨[1], none⟩) (some [9, 8, 7])).dstFile
        = some (writeAt [9, 8, 7] 0 [1]) ∧
    writeAt [9, 8, 7] 0 [1] = [1, 8, 7] ∧
    ([9, 8, 7] : List Nat).length ≤ (writeAt [9, 8, 7] 0 [1]).length ∧
    (writeAt [9, 8, 7] 0 [1])[2]? = ([9, 8, 7] : List Nat)[2]? := by
  have hfile : (clone_disk CloneMode.SectorBySector 1 (some ⟨[1], none⟩)
      (some [9, 8, 7])).dstFile = some (writeAt [9, 8, 7] 0 [1]) := by
    unfold clone_disk
    dsimp only
    rw [if_neg (by decide), clone_sector_by_sector_plain 1 (by decide) [1] [9, 8, 7],
      if_neg (by decide)]
  have h := c10_no_truncation CloneMode.SectorBySector 1 (by decide) [1] [9, 8, 7]
    (writeAt [9, 8, 7] 0 [1]) hfile
  exact ⟨hfile, by decide, h.1, h.2 2 (by decide) (by decide)⟩

end DiskBackup
